import Mathlib

/-!
Verification of the goresctrl RDT configuration resolver and control-group
reconciliation engine (pkg/rdt of intel/goresctrl).

The Go code is shallowly embedded: machine integers (uint64) become Nat with
an explicit modulus U64 = 2^64 applied exactly where the Go code can wrap
(shifts building bitmasks); Go maps keyed by partition name become either
association lists (with the Go zero-value-on-missing-key lookup) or total
functions; fallible Go functions returning (T, error) become Except String T.
Error values carry only the (constant) message kind; the numeric values that
the Go code interpolates into its error strings are dropped, since no claim
distinguishes errors beyond their kind.

Go integer division by zero panics while Nat division yields 0; the only
places this matters (calcGrants with a zero bits total) are error paths of
the model, and all theorems below are conditioned on successful resolution,
so the divergence is unobservable in any stated result.
-/

/-- 2^64, the modulus of Go's uint64 arithmetic. -/
def U64 : Nat := 2 ^ 64

/-- Modelled from the spec: the Bitmask value type's source file is absent from
src/. Number of set bits in a bitmask (Go bits.OnesCount64 as used by
verifyCatBaseMask). -/
def popcount (n : Nat) : Nat :=
  if n = 0 then 0
  else n % 2 + popcount (n / 2)
decreasing_by exact Nat.div_lt_self (Nat.pos_of_ne_zero (by assumption)) (by decide)

/-- Modelled from the spec: index of the lowest set bit of a bitmask
(Bitmask.lsbOne; the spec describes the absolute overlay shift as the index of
the base mask's lowest set bit). Returns 0 for 0; only applied to nonzero
masks. -/
def lsbOne (n : Nat) : Nat :=
  if n = 0 then 0
  else if n % 2 = 1 then 0
  else lsbOne (n / 2) + 1
decreasing_by exact Nat.div_lt_self (Nat.pos_of_ne_zero (by assumption)) (by decide)

/-- Modelled from the spec: index of the highest set bit of a bitmask
(Bitmask.msbOne). Returns 0 for 0; only applied to nonzero masks. -/
def msbOne (n : Nat) : Nat := Nat.log2 n

/-- Modelled from the spec: index of the lowest zero bit of a bitmask
(Bitmask.lsbZero); for a full cache bitmask of N contiguous low bits this is
N, the total number of available bits (cacheResolver.bitsTotal). -/
def lsbZero (n : Nat) : Nat :=
  if n % 2 = 0 then 0
  else lsbZero (n / 2) + 1
decreasing_by
  exact Nat.div_lt_self (Nat.pos_of_ne_zero (by intro h; subst h; simp_all)) (by decide)

/-- verifyCatBaseMask (config.go): the base mask must be nonzero, consist of
exactly one contiguous block of set bits, and have at least minBits bits. -/
def verifyCatBaseMask (baseMask minBits : Nat) : Except String Unit :=
  if baseMask = 0 then .error "empty basemask not allowed"
  else if popcount baseMask ≠ msbOne baseMask - lsbOne baseMask + 1 then
    .error "invalid basemask: more than one block of bits set"
  else if popcount baseMask < minBits then
    .error "invalid basemask: fewer bits set than the minimum"
  else .ok ()

/-- catAbsoluteAllocation.Overlay (config.go): shift the class mask up by the
index of the base mask's lowest set bit (in uint64 arithmetic, hence the
modulus) and require the result to stay inside the base mask. -/
def catAbsoluteAllocationOverlay (a baseMask minBits : Nat) : Except String Nat :=
  match verifyCatBaseMask baseMask minBits with
  | .error e => .error e
  | .ok _ =>
    let shiftWidth := lsbOne baseMask
    let bitmask := (a <<< shiftWidth) % U64
    if bitmask ||| baseMask ≠ baseMask then
      .error "bitmask does not fit basemask"
    else .ok bitmask

/-- catPctRangeAllocation.Overlay (config.go): map the percentage range onto
bit positions of the base mask proportionally to its width, widen to minBits
from the low end then the high end, and build the mask (in Go 64-bit
arithmetic, hence the modulus). -/
def catPctRangeAllocationOverlay (lowPct highPct baseMask minBits : Nat) : Except String Nat :=
  match verifyCatBaseMask baseMask minBits with
  | .error e => .error e
  | .ok _ =>
    let baseMaskMsb := msbOne baseMask
    let baseMaskLsb := lsbOne baseMask
    let baseMaskNumBits := baseMaskMsb - baseMaskLsb + 1
    let low := if lowPct = 0 then 1 else lowPct
    if low > highPct ∨ low > 100 ∨ highPct > 100 then
      .error "invalid percentage range"
    else
      let lsb := (low - 1) * baseMaskNumBits / 100
      let msb := (highPct - 1) * baseMaskNumBits / 100
      let numBits := msb - lsb + 1
      if numBits < minBits then
        let gap := minBits - numBits
        let lsb2 := if gap ≤ lsb then lsb - gap else 0
        let gap2 := if gap ≤ lsb then 0 else gap - lsb
        let msbAvailable := baseMaskNumBits - msb - 1
        if gap2 ≤ msbAvailable then
          .ok ((((1 <<< (msb + gap2 - lsb2 + 1)) - 1) <<< (lsb2 + baseMaskLsb)) % U64)
        else
          .error "BUG: not enough bits available for cache bitmask"
      else
        .ok ((((1 <<< (msb - lsb + 1)) - 1) <<< (lsb + baseMaskLsb)) % U64)

/-- catPctAllocation.Overlay (config.go): delegates to the range overlay with
an unset (zero) low percentage. -/
def catPctAllocationOverlay (a baseMask minBits : Nat) : Except String Nat :=
  catPctRangeAllocationOverlay 0 a baseMask minBits

/-- reqHelper (cacheResolver.resolveRelative): a partition name paired with
its requested percentage. -/
structure reqHelper where
  name : String
  req : Nat
deriving DecidableEq, Repr

/-- Ascending insertion for the model of Go's sort.Slice on reqHelpers. -/
def insertAsc (x : reqHelper) : List reqHelper → List reqHelper
  | [] => [x]
  | y :: ys => if x.req < y.req then x :: y :: ys else y :: insertAsc x ys

/-- The ascending-by-requested-percentage sort of resolveRelative. Go uses the
unstable sort.Slice with a strict less-than comparator; any sort agreeing with
it on the ordering of distinct percentages is a faithful model. -/
def sortAsc : List reqHelper → List reqHelper
  | [] => []
  | x :: xs => insertAsc x (sortAsc xs)

/-- The bit count granted in one iteration of resolveRelative's loop:
floor(request * bitsAvailable / percentageAvailable) bits, clamped up to
minBits, clamped down to (and for the last partition set to) the bits still
available. -/
def grantNumBits (minBits pctTotal bitsTotal req bitsAvailable : Nat) (isLast : Bool) : Nat :=
  let pctAvailable := bitsAvailable * pctTotal / bitsTotal
  let numBits0 := req * bitsAvailable / pctAvailable
  let numBits1 := if numBits0 < minBits then minBits else numBits0
  if numBits1 > bitsAvailable ∨ isLast = true then bitsAvailable else numBits1

/-- The grant-counting loop of cacheResolver.resolveRelative: walk the sorted
requests, granting each partition grantNumBits bits and failing when fewer
than minBits bits remain. -/
def calcGrants (minBits pctTotal bitsTotal : Nat) :
    List reqHelper → Nat → Except String (List (String × Nat))
  | [], _ => .ok []
  | r :: rest, bitsAvailable =>
    if bitsAvailable < minBits then
      .error "not enough exclusive bits available"
    else
      let numBits := grantNumBits minBits pctTotal bitsTotal r.req bitsAvailable rest.isEmpty
      match calcGrants minBits pctTotal bitsTotal rest (bitsAvailable - numBits) with
      | .error e => .error e
      | .ok gs => .ok ((r.name, numBits) :: gs)

/-- Go map lookup with the uint64 zero value for a missing key (grants map of
resolveRelative). -/
def lookupD (gs : List (String × Nat)) (k : String) : Nat :=
  match gs with
  | [] => 0
  | (k1, v) :: rest => if k = k1 then v else lookupD rest k

/-- The mask-construction loop of cacheResolver.resolveRelative: walk
r.partitions (the name-sorted partition list) assigning each partition the
next grants[p] bits upward from the running offset (uint64 arithmetic, hence
the modulus). -/
def buildMasks (grants : String → Nat) : List String → Nat → List (String × Nat)
  | [], _ => []
  | p :: rest, lsbID =>
    (p, (((1 <<< grants p) - 1) <<< lsbID) % U64) :: buildMasks grants rest (lsbID + grants p)

/-- Untruncated variant of buildMasks, used only inside proofs (equal to
buildMasks whenever the bits fit in 64). -/
def buildMasksPure (grants : String → Nat) : List String → Nat → List (String × Nat)
  | [], _ => []
  | p :: rest, lsbID =>
    (p, ((2 ^ grants p) - 1) * 2 ^ lsbID) :: buildMasksPure grants rest (lsbID + grants p)

/-- cacheResolver.resolveRelative (config.go) for one cache id and schema
type, with every partition holding a catPctAllocation request (the only
non-error case). partitions is r.partitions, the name-sorted partition list;
requests gives each partition's percentage; bitsTotal is r.bitsTotal, the
number of bits of the full cache bitmask. Returns the per-partition granted
absolute masks. -/
def resolveRelative (minBits bitsTotal : Nat) (partitions : List String)
    (requests : String → Nat) : Except String (List (String × Nat)) :=
  let percentageTotal := (partitions.map requests).sum
  if percentageTotal > 100 then
    .error "accumulated partition allocation requests exceed 100 percent"
  else
    let reqs := sortAsc (partitions.map (fun p => reqHelper.mk p (requests p)))
    let bitsT := percentageTotal * bitsTotal / 100
    match calcGrants minBits percentageTotal bitsT reqs bitsT with
    | .error e => .error e
    | .ok gs => .ok (buildMasks (lookupD gs) partitions 0)

/-- The per-partition loop of cacheResolver.resolveAbsolute: OR each request
into an accumulator, failing when a request shares a bit with an earlier one;
the granted mask is the raw requested mask. -/
def resolveAbsoluteGo (requests : String → Nat) :
    List String → Nat → Except String (List (String × Nat))
  | [], _ => .ok []
  | p :: rest, mask =>
    if requests p &&& mask > 0 then
      .error "overlapping partition allocation requests"
    else
      match resolveAbsoluteGo requests rest (mask ||| requests p) with
      | .error e => .error e
      | .ok gs => .ok ((p, requests p) :: gs)

/-- cacheResolver.resolveAbsolute (config.go) for one cache id and schema
type, with every partition holding a catAbsoluteAllocation request (the only
non-error case). -/
def resolveAbsolute (partitions : List String) (requests : String → Nat) :
    Except String (List (String × Nat)) :=
  resolveAbsoluteGo requests partitions 0

/-- math.MaxUint32, the default MBps request of a class with no MB schema. -/
def mbMaxUint32 : Nat := 4294967295

/-- The per-cache-id value computation of mbSchema.ToStr (config.go). s = none
models a nil mbSchema (the class supplied no MB schema); s = some f models the
Go map (total lookup; absent keys give 0). In percentage mode the product is
taken in uint64 arithmetic, hence the modulus. -/
def mbToStrValue (mbpsEnabled : Bool) (minBandwidth : Nat) (s : Option (Nat → Nat))
    (id baseAllocation : Nat) : Nat :=
  if mbpsEnabled then
    let value := match s with
      | none => mbMaxUint32
      | some f => f id
    if value > baseAllocation then baseAllocation else value
  else
    let allocation := match s with
      | none => 100
      | some f => f id
    let value := allocation * baseAllocation % U64 / 100
    if value < minBandwidth then minBandwidth else value

/-- RootClassName (rdt.go). -/
def RootClassName : String := "system/default"

/-- RootClassAlias (rdt.go). -/
def RootClassAlias : String := ""

/-- isRootClass (rdt.go). -/
def isRootClass (name : String) : Bool :=
  name = RootClassName ∨ name = RootClassAlias

/-- The duplicate-class-name check of Config.resolveClasses (config.go): class
names are collected across partitions and a name already seen is rejected.
The names are used exactly as written in the configuration; no unaliasing is
applied before the check. -/
def collectClassNames : List String → List String → Except String (List String)
  | [], acc => .ok acc
  | g :: rest, acc =>
    if g ∈ acc then .error "class names must be unique, defined multiple times"
    else collectClassNames rest (acc ++ [g])

/-- Config.resolveClasses (config.go) restricted to its class-name uniqueness
behaviour: each partition is a name paired with its list of class names. -/
def resolveClassesNames (partitions : List (String × List String)) :
    Except String (List String) :=
  collectClassNames (partitions.map Prod.snd).flatten []

/-- One on-disk resctrl control group, as seen by control.configureResctrl:
its (prefix-stripped) name and the process ids listed in its tasks file. -/
structure fsGroup where
  name : String
  pids : List String
deriving DecidableEq, Repr

/-- The stale-group removal loop of control.configureResctrl (rdt.go): for
every on-disk group matching the engine group namespace that is neither the
root class nor present in the resolved configuration, abort if force-mode is
off and the group has assigned processes; otherwise remove its directory and
drop it from the tracked class set. On success the remaining on-disk groups
are returned; on abort the error carries the on-disk groups that remain
(prior successful removals stand). -/
def removeStaleGroups (force : Bool) (confClasses : List String) :
    List fsGroup → Except (List fsGroup) (List fsGroup)
  | [] => .ok []
  | g :: rest =>
    if isRootClass g.name ∨ g.name ∈ confClasses then
      match removeStaleGroups force confClasses rest with
      | .ok kept => .ok (g :: kept)
      | .error remaining => .error (g :: remaining)
    else if force = false ∧ g.pids ≠ [] then
      .error (g :: rest)
    else
      removeStaleGroups force confClasses rest

/-- Whitespace as trimmed by Go's strings.TrimSpace, restricted to the ASCII
space characters (the only ones a resctrl tasks file can contain). -/
def isSpace (c : Char) : Bool :=
  c = ' ' ∨ c = '\t' ∨ c = '\n' ∨ c = '\x0b' ∨ c = '\x0c' ∨ c = '\r'

/-- strings.TrimSpace on a character list. -/
def trimSpace (s : List Char) : List Char :=
  ((s.dropWhile isSpace).reverse.dropWhile isSpace).reverse

/-- strings.Split(s, newline): Go's Split never returns an empty list; an
empty input yields one empty field. -/
def splitNl : List Char → List (List Char)
  | [] => [[]]
  | c :: rest =>
    let r := splitNl rest
    if c = '\n' then [] :: r
    else
      match r with
      | [] => [[c]]
      | h :: t => (c :: h) :: t

/-- resctrlGroup.GetPids (ctrlmongroup.go) after a successful read of the
tasks file: trim the data, split on newlines, and return the empty list when
the first field is empty. -/
def getPids (data : List Char) : List (List Char) :=
  let split := splitNl (trimSpace data)
  match split with
  | [] => []
  | h :: _ => if h.length > 0 then split else []

/-- Newline-joined task list, the well-formed content of a tasks file. -/
def joinNl (pids : List (List Char)) : List Char :=
  (List.intersperse ['\n'] pids).flatten

deriving instance DecidableEq for Except

theorem popcount_zero : popcount 0 = 0 := by rw [popcount.eq_def]; simp

theorem popcount_two_mul (n : Nat) : popcount (2 * n) = popcount n := by
  rcases Nat.eq_zero_or_pos n with h | h
  · subst h; rfl
  · rw [popcount.eq_def]
    have h2 : ¬ (2 * n = 0) := by omega
    simp only [h2, if_false]
    have h3 : 2 * n % 2 = 0 := by omega
    have h4 : 2 * n / 2 = n := by omega
    rw [h3, h4, Nat.zero_add]

theorem popcount_two_mul_add_one (n : Nat) : popcount (2 * n + 1) = popcount n + 1 := by
  rw [popcount.eq_def]
  have h2 : ¬ (2 * n + 1 = 0) := by omega
  simp only [h2, if_false]
  have h3 : (2 * n + 1) % 2 = 1 := by omega
  have h4 : (2 * n + 1) / 2 = n := by omega
  rw [h3, h4]; omega

theorem popcount_two_pow_mul (o n : Nat) : popcount (2 ^ o * n) = popcount n := by
  induction o with
  | zero => simp
  | succ k ih =>
    have h : 2 ^ (k + 1) * n = 2 * (2 ^ k * n) := by ring
    rw [h, popcount_two_mul, ih]

theorem popcount_two_pow_sub_one (n : Nat) : popcount (2 ^ n - 1) = n := by
  induction n with
  | zero => simpa using popcount_zero
  | succ k ih =>
    have h : 2 ^ (k + 1) - 1 = 2 * (2 ^ k - 1) + 1 := by
      have := Nat.one_le_two_pow (n := k)
      omega
    rw [h, popcount_two_mul_add_one, ih]

theorem popcount_block (w o : Nat) : popcount ((2 ^ w - 1) * 2 ^ o) = w := by
  rw [Nat.mul_comm, popcount_two_pow_mul, popcount_two_pow_sub_one]

theorem lsbOne_block (w o : Nat) (h : 0 < w) : lsbOne ((2 ^ w - 1) * 2 ^ o) = o := by
  induction o with
  | zero =>
    rw [lsbOne.eq_def]
    have h1 : (2 ^ w - 1) * 2 ^ 0 = 2 ^ w - 1 := by simp
    have h2 : ¬ (2 ^ w - 1) * 2 ^ 0 = 0 := by
      have := Nat.one_lt_two_pow_iff.mpr (by omega : w ≠ 0)
      simp [h1]; omega
    have h3 : (2 ^ w - 1) * 2 ^ 0 % 2 = 1 := by
      have h4 : ∃ k, 2 ^ w = 2 * k := ⟨2 ^ (w - 1), by rw [← Nat.pow_succ']; congr 1; omega⟩
      rcases h4 with ⟨k, hk⟩
      have hk1 : 1 ≤ k := by
        have := Nat.one_le_two_pow (n := w); omega
      rw [h1, hk]; omega
    simp only [h2, if_false, h3]
    simp
  | succ m ih =>
    rw [lsbOne.eq_def]
    have h5 : 0 < 2 ^ w - 1 := by
      have := Nat.one_lt_two_pow_iff.mpr (by omega : w ≠ 0); omega
    have h6 : 0 < 2 ^ (m + 1) := Nat.pos_pow_of_pos (m + 1) (by decide)
    have h2 : ¬ (2 ^ w - 1) * 2 ^ (m + 1) = 0 := by
      have := Nat.mul_pos h5 h6; omega
    have h7 : (2 ^ w - 1) * 2 ^ (m + 1) = 2 * ((2 ^ w - 1) * 2 ^ m) := by ring
    have heven : (2 ^ w - 1) * 2 ^ (m + 1) % 2 = 0 := by omega
    have hdiv : (2 ^ w - 1) * 2 ^ (m + 1) / 2 = (2 ^ w - 1) * 2 ^ m := by omega
    simp only [h2, if_false, heven, hdiv, ih]
    simp

theorem msbOne_block (w o : Nat) (h : 0 < w) : msbOne ((2 ^ w - 1) * 2 ^ o) = o + w - 1 := by
  unfold msbOne
  have h5 : 0 < 2 ^ w - 1 := by
    have := Nat.one_lt_two_pow_iff.mpr (by omega : w ≠ 0); omega
  have h6 : 0 < 2 ^ o := Nat.pos_pow_of_pos o (by decide)
  have hne : (2 ^ w - 1) * 2 ^ o ≠ 0 := by
    have := Nat.mul_pos h5 h6; omega
  have hub : (2 ^ w - 1) * 2 ^ o < 2 ^ (o + w) := by
    have h1 : 2 ^ w - 1 < 2 ^ w := by
      have := Nat.one_le_two_pow (n := w); omega
    calc (2 ^ w - 1) * 2 ^ o < 2 ^ w * 2 ^ o := by
          exact (Nat.mul_lt_mul_right h6).mpr h1
      _ = 2 ^ (o + w) := by rw [← Nat.pow_add, Nat.add_comm]
  have hlb : 2 ^ (o + w - 1) ≤ (2 ^ w - 1) * 2 ^ o := by
    have h1 : 2 ^ (w - 1) ≤ 2 ^ w - 1 := by
      have h2 : 2 ^ w = 2 * 2 ^ (w - 1) := by
        rw [← Nat.pow_succ']; congr 1; omega
      have := Nat.one_le_two_pow (n := w - 1)
      omega
    calc 2 ^ (o + w - 1) = 2 ^ (w - 1) * 2 ^ o := by
          rw [← Nat.pow_add]; congr 1; omega
      _ ≤ (2 ^ w - 1) * 2 ^ o := Nat.mul_le_mul_right _ h1
  have hlt := (Nat.log2_lt hne).mpr hub
  have hge := (Nat.le_log2 hne).mpr hlb
  omega

theorem lsbZero_two_pow_sub_one (n : Nat) : lsbZero (2 ^ n - 1) = n := by
  induction n with
  | zero => rw [lsbZero.eq_def]; simp
  | succ m ih =>
    rw [lsbZero.eq_def]
    have h : 2 ^ (m + 1) - 1 = 2 * (2 ^ m - 1) + 1 := by
      have := Nat.one_le_two_pow (n := m); omega
    have hmod : (2 ^ (m + 1) - 1) % 2 = 1 := by omega
    have hdiv : (2 ^ (m + 1) - 1) / 2 = 2 ^ m - 1 := by omega
    simp only [hmod, hdiv, ih]
    simp

theorem testBit_block (w o i : Nat) :
    Nat.testBit ((2 ^ w - 1) * 2 ^ o) i = (decide (o ≤ i) && decide (i < o + w)) := by
  rw [← Nat.shiftLeft_eq, Nat.testBit_shiftLeft, Nat.testBit_two_pow_sub_one]
  by_cases h1 : o ≤ i <;> by_cases h2 : i - o < w <;> by_cases h3 : i < o + w <;>
    simp [h1, h2, h3, ge_iff_le] <;> omega

theorem land_eq_zero_iff (a b : Nat) :
    a &&& b = 0 ↔ ∀ i, a.testBit i = false ∨ b.testBit i = false := by
  constructor
  · intro h i
    have h1 := congrArg (fun n => Nat.testBit n i) h
    simp only [Nat.testBit_and, Nat.zero_testBit] at h1
    rcases Bool.and_eq_false_iff.mp h1 with h2 | h2
    · exact Or.inl h2
    · exact Or.inr h2
  · intro h
    apply Nat.eq_of_testBit_eq
    intro i
    simp only [Nat.testBit_and, Nat.zero_testBit]
    rcases h i with h2 | h2 <;> simp [h2]

theorem land_block_block (w1 o1 w2 o2 : Nat) (h : o1 + w1 ≤ o2) :
    ((2 ^ w1 - 1) * 2 ^ o1) &&& ((2 ^ w2 - 1) * 2 ^ o2) = 0 := by
  rw [land_eq_zero_iff]
  intro i
  rw [testBit_block, testBit_block]
  by_cases h1 : o1 ≤ i <;> by_cases h2 : i < o1 + w1 <;>
    by_cases h3 : o2 ≤ i <;> simp [h1, h2, h3] <;> omega

theorem land_lor_split (a b c : Nat) :
    a &&& (b ||| c) = 0 ↔ (a &&& b = 0 ∧ a &&& c = 0) := by
  simp only [land_eq_zero_iff, Nat.testBit_or]
  constructor
  · intro h
    constructor <;> intro i <;> rcases h i with h2 | h2
    · exact Or.inl h2
    · exact Or.inr (Bool.or_eq_false_iff.mp h2).1
    · exact Or.inl h2
    · exact Or.inr (Bool.or_eq_false_iff.mp h2).2
  · intro h i
    rcases h.1 i with h2 | h2
    · exact Or.inl h2
    · rcases h.2 i with h3 | h3
      · exact Or.inl h3
      · exact Or.inr (by simp [h2, h3])

theorem land_self_of_lor_eq (m b : Nat) (h : m ||| b = b) : m &&& b = m := by
  apply Nat.eq_of_testBit_eq
  intro i
  have h1 := congrArg (fun n => Nat.testBit n i) h
  simp only [Nat.testBit_or] at h1
  simp only [Nat.testBit_and]
  cases h2 : Nat.testBit m i
  · simp
  · rw [h2] at h1
    simp at h1
    simp [h1]

theorem grantNumBits_le (minBits pctTotal bitsTotal req avail : Nat) (isLast : Bool)
    (h : minBits ≤ avail) :
    minBits ≤ grantNumBits minBits pctTotal bitsTotal req avail isLast ∧
      grantNumBits minBits pctTotal bitsTotal req avail isLast ≤ avail := by
  unfold grantNumBits
  by_cases h0 : req * avail / (avail * pctTotal / bitsTotal) < minBits <;>
    simp only [h0, if_true, if_false] <;> split <;> omega

theorem insertAsc_perm (x : reqHelper) (l : List reqHelper) :
    (insertAsc x l).Perm (x :: l) := by
  induction l with
  | nil => simp [insertAsc]
  | cons y ys ih =>
    rw [insertAsc]
    split
    · exact List.Perm.refl _
    · exact (List.Perm.cons y ih).trans (List.Perm.swap x y ys)

theorem sortAsc_perm (l : List reqHelper) : (sortAsc l).Perm l := by
  induction l with
  | nil => exact List.Perm.refl _
  | cons x xs ih =>
    rw [sortAsc]
    exact (insertAsc_perm x (sortAsc xs)).trans (List.Perm.cons x ih)

theorem calcGrants_ok (minBits pctTotal bitsTotal : Nat) (reqs : List reqHelper) :
    ∀ (avail : Nat) (gs : List (String × Nat)),
    calcGrants minBits pctTotal bitsTotal reqs avail = .ok gs →
    gs.map Prod.fst = reqs.map reqHelper.name ∧
      (∀ e ∈ gs, minBits ≤ e.2) ∧ (gs.map Prod.snd).sum ≤ avail := by
  induction reqs with
  | nil =>
    intro avail gs h
    rw [calcGrants] at h
    cases h
    simp
  | cons r rest ih =>
    intro avail gs h
    rw [calcGrants] at h
    by_cases hlt : avail < minBits
    · rw [if_pos hlt] at h; cases h
    · rw [if_neg hlt] at h
      simp only at h
      rcases hrec : calcGrants minBits pctTotal bitsTotal rest
          (avail - grantNumBits minBits pctTotal bitsTotal r.req avail rest.isEmpty) with e | gs1
      · rw [hrec] at h; cases h
      · rw [hrec] at h
        cases h
        have hg := grantNumBits_le minBits pctTotal bitsTotal r.req avail rest.isEmpty (by omega)
        have hih := ih _ _ hrec
        refine ⟨by simp [hih.1], ?_, ?_⟩
        · intro e he
          rcases List.mem_cons.mp he with he1 | he1
          · subst he1; exact hg.1
          · exact hih.2.1 e he1
        · simp only [List.map_cons, List.sum_cons]
          have := hih.2.2
          omega

theorem lookupD_mem (gs : List (String × Nat)) (k : String)
    (h : k ∈ gs.map Prod.fst) : (k, lookupD gs k) ∈ gs := by
  induction gs with
  | nil => simp at h
  | cons e rest ih =>
    rcases e with ⟨k1, v⟩
    rw [lookupD]
    by_cases hk : k = k1
    · subst hk; simp
    · simp only [if_neg hk]
      simp only [List.map_cons, List.mem_cons] at h
      rcases h with h | h
      · exact absurd h hk
      · exact List.mem_cons_of_mem _ (ih h)

theorem lookupD_eq_of_nodup (gs : List (String × Nat))
    (hnd : (gs.map Prod.fst).Nodup) :
    ∀ e ∈ gs, lookupD gs e.1 = e.2 := by
  induction gs with
  | nil => intro e he; simp at he
  | cons x rest ih =>
    intro e he
    rcases x with ⟨k1, v⟩
    simp only [List.map_cons, List.nodup_cons] at hnd
    rcases List.mem_cons.mp he with he1 | he1
    · subst he1; rw [lookupD]; simp
    · rw [lookupD]
      have hne : e.1 ≠ k1 := by
        intro heq
        apply hnd.1
        rw [← heq]
        exact List.mem_map_of_mem Prod.fst he1
      simp only [if_neg hne]
      exact ih hnd.2 e he1

theorem lookupD_map_eq_snd (gs : List (String × Nat))
    (hnd : (gs.map Prod.fst).Nodup) :
    (gs.map Prod.fst).map (lookupD gs) = gs.map Prod.snd := by
  rw [List.map_map]
  apply List.map_congr_left
  intro e he
  exact lookupD_eq_of_nodup gs hnd e he

theorem buildMasks_map_fst (g : String → Nat) (ps : List String) (lsb : Nat) :
    (buildMasks g ps lsb).map Prod.fst = ps := by
  induction ps generalizing lsb with
  | nil => rw [buildMasks]; simp
  | cons p rest ih => rw [buildMasks]; simp [ih]

theorem buildMasks_eq_pure (g : String → Nat) (ps : List String) (lsb : Nat)
    (h : lsb + (ps.map g).sum ≤ 64) :
    buildMasks g ps lsb = buildMasksPure g ps lsb := by
  induction ps generalizing lsb with
  | nil => rw [buildMasks, buildMasksPure]
  | cons p rest ih =>
    rw [buildMasks, buildMasksPure]
    simp only [List.map_cons, List.sum_cons] at h
    have h1 : (((1 <<< g p) - 1) <<< lsb) % U64 = ((2 ^ g p) - 1) * 2 ^ lsb := by
      rw [Nat.one_shiftLeft, Nat.shiftLeft_eq, U64]
      apply Nat.mod_eq_of_lt
      calc (2 ^ g p - 1) * 2 ^ lsb < 2 ^ g p * 2 ^ lsb := by
            have hp : 0 < 2 ^ g p := Nat.pos_pow_of_pos _ (by decide)
            have hq : 0 < 2 ^ lsb := Nat.pos_pow_of_pos _ (by decide)
            exact (Nat.mul_lt_mul_right hq).mpr (by omega)
        _ = 2 ^ (g p + lsb) := by rw [← Nat.pow_add]
        _ ≤ 2 ^ 64 := Nat.pow_le_pow_right (by decide) (by omega)
    rw [h1, ih (lsb + g p) (by omega)]

theorem buildMasksPure_mem (g : String → Nat) (ps : List String) (lsb : Nat) :
    ∀ e ∈ buildMasksPure g ps lsb,
      ∃ o, lsb ≤ o ∧ e = (e.1, ((2 ^ g e.1) - 1) * 2 ^ o) := by
  induction ps generalizing lsb with
  | nil => intro e he; rw [buildMasksPure] at he; simp at he
  | cons p rest ih =>
    intro e he
    rw [buildMasksPure] at he
    rcases List.mem_cons.mp he with he1 | he1
    · exact ⟨lsb, Nat.le_refl _, by rw [he1]⟩
    · rcases ih (lsb + g p) e he1 with ⟨o, ho, hoe⟩
      exact ⟨o, by omega, hoe⟩

theorem buildMasksPure_popcounts (g : String → Nat) (ps : List String) (lsb : Nat) :
    (buildMasksPure g ps lsb).map (fun e => popcount e.2) = ps.map g := by
  induction ps generalizing lsb with
  | nil => rw [buildMasksPure]; simp
  | cons p rest ih =>
    rw [buildMasksPure]
    simp only [List.map_cons]
    rw [popcount_block, ih]

theorem buildMasksPure_pairwise (g : String → Nat) (ps : List String) (lsb : Nat) :
    (buildMasksPure g ps lsb).Pairwise (fun a b => a.2 &&& b.2 = 0) := by
  induction ps generalizing lsb with
  | nil => rw [buildMasksPure]; exact List.Pairwise.nil
  | cons p rest ih =>
    rw [buildMasksPure]
    refine List.pairwise_cons.mpr ⟨?_, ih (lsb + g p)⟩
    intro e he
    rcases buildMasksPure_mem g rest (lsb + g p) e he with ⟨o, ho, hoe⟩
    have h2 : e.2 = ((2 ^ g e.1) - 1) * 2 ^ o := congrArg Prod.snd hoe
    rw [h2]
    exact land_block_block (g p) lsb (g e.1) o (by omega)

theorem sortAsc_names_perm (partitions : List String) (requests : String → Nat) :
    ((sortAsc (partitions.map (fun p => reqHelper.mk p (requests p)))).map reqHelper.name).Perm
      partitions := by
  have h1 := sortAsc_perm (partitions.map (fun p => reqHelper.mk p (requests p)))
  have h2 := List.Perm.map reqHelper.name h1
  have h3 : (partitions.map (fun p => reqHelper.mk p (requests p))).map reqHelper.name
      = partitions := by
    rw [List.map_map]
    show List.map (fun p => p) partitions = partitions
    exact List.map_id' partitions
  rw [h3] at h2
  exact h2

/-- C1: for percentage partition requests for one cache id and sub-type
summing to at most 100 percent, successful resolution grants pairwise disjoint
bitmasks, each with at least minBits set bits, with a total set-bit count at
most the number of available bits of the hardware's full cache bitmask. -/
theorem resolveRelative_exclusive (minBits bitsTotal : Nat) (partitions : List String)
    (requests : String → Nat) (masks : List (String × Nat))
    (hnodup : partitions.Nodup) (hbt : bitsTotal ≤ 64)
    (hsum : (partitions.map requests).sum ≤ 100)
    (hok : resolveRelative minBits bitsTotal partitions requests = .ok masks) :
    masks.Pairwise (fun a b => a.2 &&& b.2 = 0) ∧
      (∀ e ∈ masks, minBits ≤ popcount e.2) ∧
      (masks.map (fun e => popcount e.2)).sum ≤ bitsTotal := by
  simp only [resolveRelative] at hok
  rw [if_neg (by omega : ¬ (partitions.map requests).sum > 100)] at hok
  rcases hcg : calcGrants minBits ((partitions.map requests).sum)
      ((partitions.map requests).sum * bitsTotal / 100)
      (sortAsc (partitions.map (fun p => reqHelper.mk p (requests p))))
      ((partitions.map requests).sum * bitsTotal / 100) with e | gs
  · rw [hcg] at hok; cases hok
  · rw [hcg] at hok
    cases hok
    have hcgok := calcGrants_ok _ _ _ _ _ _ hcg
    have hperm : (gs.map Prod.fst).Perm partitions := by
      rw [hcgok.1]; exact sortAsc_names_perm partitions requests
    have hnd2 : (gs.map Prod.fst).Nodup := (List.Perm.nodup_iff hperm).mpr hnodup
    have hmapperm : (partitions.map (lookupD gs)).Perm (gs.map Prod.snd) := by
      have h1 := List.Perm.map (lookupD gs) hperm.symm
      rw [lookupD_map_eq_snd gs hnd2] at h1
      exact h1
    have hsum2 : (partitions.map (lookupD gs)).sum = (gs.map Prod.snd).sum :=
      List.Perm.sum_eq hmapperm
    have hbitsT : (partitions.map requests).sum * bitsTotal / 100 ≤ bitsTotal := by
      have h1 : (partitions.map requests).sum * bitsTotal ≤ 100 * bitsTotal :=
        Nat.mul_le_mul_right _ hsum
      have h2 := Nat.div_le_div_right (c := 100) h1
      rwa [Nat.mul_div_cancel_left _ (by decide : 0 < 100)] at h2
    have hbound : 0 + (partitions.map (lookupD gs)).sum ≤ 64 := by
      rw [Nat.zero_add, hsum2]
      calc (gs.map Prod.snd).sum ≤ (partitions.map requests).sum * bitsTotal / 100 :=
            hcgok.2.2
        _ ≤ bitsTotal := hbitsT
        _ ≤ 64 := hbt
    rw [buildMasks_eq_pure _ _ _ hbound]
    refine ⟨buildMasksPure_pairwise _ _ _, ?_, ?_⟩
    · intro e he
      have h1 : popcount e.2 ∈ (buildMasksPure (lookupD gs) partitions 0).map
          (fun e => popcount e.2) := List.mem_map_of_mem _ he
      rw [buildMasksPure_popcounts] at h1
      rcases List.mem_map.mp h1 with ⟨p, hp, hpe⟩
      have h2 : p ∈ gs.map Prod.fst := (List.Perm.mem_iff hperm).mpr hp
      have h3 := lookupD_mem gs p h2
      have h4 := hcgok.2.1 _ h3
      simp only at h4
      omega
    · rw [buildMasksPure_popcounts, hsum2]
      calc (gs.map Prod.snd).sum ≤ (partitions.map requests).sum * bitsTotal / 100 :=
            hcgok.2.2
        _ ≤ bitsTotal := hbitsT

/-- Witness for C1 at a concrete input: partitions a (60 percent) and b (40
percent) over a 20-bit cache with minBits 1. -/
theorem resolveRelative_exclusive_witness :
    [(("a" : String), (0xfff : Nat)), ("b", 0xff000)].Pairwise (fun a b => a.2 &&& b.2 = 0) ∧
      (∀ e ∈ [(("a" : String), (0xfff : Nat)), ("b", 0xff000)], 1 ≤ popcount e.2) ∧
      (([(("a" : String), (0xfff : Nat)), ("b", 0xff000)].map (fun e => popcount e.2)).sum ≤ 20) :=
  resolveRelative_exclusive 1 20 ["a", "b"] (fun p => if p = "a" then 60 else 40)
    [("a", 0xfff), ("b", 0xff000)] (by decide) (by decide) (by decide) (by decide)

theorem resolveAbsoluteGo_ok_iff (requests : String → Nat) (ps : List String) :
    ∀ mask, (∃ gs, resolveAbsoluteGo requests ps mask = .ok gs) ↔
      ((∀ p ∈ ps, requests p &&& mask = 0) ∧
        ps.Pairwise (fun p q => requests p &&& requests q = 0)) := by
  induction ps with
  | nil =>
    intro mask
    constructor
    · intro _
      exact ⟨by simp, List.Pairwise.nil⟩
    · intro _
      exact ⟨[], by rw [resolveAbsoluteGo]⟩
  | cons p rest ih =>
    intro mask
    rw [resolveAbsoluteGo]
    by_cases h0 : requests p &&& mask > 0
    · rw [if_pos h0]
      constructor
      · rintro ⟨gs, hgs⟩
        cases hgs
      · rintro ⟨hall, _⟩
        exact absurd (hall p (by simp)) (by omega)
    · rw [if_neg h0]
      have h1 : requests p &&& mask = 0 := by omega
      constructor
      · rintro ⟨gs, hgs⟩
        rcases hrec : resolveAbsoluteGo requests rest (mask ||| requests p) with e | gs1
        · rw [hrec] at hgs; cases hgs
        · have hex := (ih (mask ||| requests p)).mp ⟨gs1, hrec⟩
          refine ⟨?_, ?_⟩
          · intro q hq
            rcases List.mem_cons.mp hq with hq1 | hq1
            · subst hq1; exact h1
            · exact ((land_lor_split _ _ _).mp (hex.1 q hq1)).1
          · refine List.pairwise_cons.mpr ⟨?_, hex.2⟩
            intro q hq
            have h2 := ((land_lor_split _ _ _).mp (hex.1 q hq)).2
            rw [Nat.land_comm] at h2
            exact h2
      · rintro ⟨hall, hpw⟩
        have hpc := List.pairwise_cons.mp hpw
        have hrest : ∀ q ∈ rest, requests q &&& (mask ||| requests p) = 0 := by
          intro q hq
          refine (land_lor_split _ _ _).mpr ⟨hall q (List.mem_cons_of_mem _ hq), ?_⟩
          have h2 := hpc.1 q hq
          rw [Nat.land_comm] at h2
          exact h2
        rcases (ih (mask ||| requests p)).mpr ⟨hrest, hpc.2⟩ with ⟨gs1, hgs1⟩
        exact ⟨(p, requests p) :: gs1, by rw [hgs1]⟩

theorem resolveAbsoluteGo_ok_val (requests : String → Nat) (ps : List String) :
    ∀ mask gs, resolveAbsoluteGo requests ps mask = .ok gs →
      gs = ps.map (fun p => (p, requests p)) := by
  induction ps with
  | nil =>
    intro mask gs h
    rw [resolveAbsoluteGo] at h
    cases h
    simp
  | cons p rest ih =>
    intro mask gs h
    rw [resolveAbsoluteGo] at h
    by_cases h0 : requests p &&& mask > 0
    · rw [if_pos h0] at h; cases h
    · rw [if_neg h0] at h
      rcases hrec : resolveAbsoluteGo requests rest (mask ||| requests p) with e | gs1
      · rw [hrec] at h; cases h
      · rw [hrec] at h
        cases h
        rw [List.map_cons, ih _ _ hrec]

/-- C3: absolute partition resolution for one cache id and sub-type succeeds
exactly when the requested bitmasks are pairwise disjoint, and on success
every partition is granted precisely its raw requested mask. -/
theorem resolveAbsolute_disjoint_iff (partitions : List String) (requests : String → Nat) :
    ((∃ gs, resolveAbsolute partitions requests = .ok gs) ↔
      partitions.Pairwise (fun p q => requests p &&& requests q = 0)) ∧
      (∀ gs, resolveAbsolute partitions requests = .ok gs →
        gs = partitions.map (fun p => (p, requests p))) := by
  constructor
  · rw [resolveAbsolute, resolveAbsoluteGo_ok_iff]
    constructor
    · intro h
      exact h.2
    · intro h
      exact ⟨by simp, h⟩
  · intro gs h
    exact resolveAbsoluteGo_ok_val requests partitions 0 gs h

/-- Witness for C3 at concrete inputs: disjoint requests 0x3 and 0xc resolve
to exactly the raw masks; overlapping requests 0x3 and 0x6 are rejected. -/
theorem resolveAbsolute_disjoint_iff_witness :
    (∃ gs, resolveAbsolute ["p0", "p1"] (fun p => if p = "p0" then 0x3 else 0xc) = .ok gs) ∧
      ¬ (∃ gs, resolveAbsolute ["p0", "p1"] (fun p => if p = "p0" then 0x3 else 0x6) = .ok gs) :=
  ⟨(resolveAbsolute_disjoint_iff ["p0", "p1"] (fun p => if p = "p0" then 0x3 else 0xc)).1.mpr
      (by decide),
    fun hex =>
      absurd ((resolveAbsolute_disjoint_iff ["p0", "p1"]
          (fun p => if p = "p0" then 0x3 else 0x6)).1.mp hex) (by decide)⟩

/-- C2 counterexample: for partitions exclusive (60 percent) and shared (40
percent) over the 20-bit full mask 0xfffff with minBits 1, the code grants
exclusive bits 0 to 11 (0xfff) and shared bits 12 to 19 (0xff000), not the
claimed 0xfff00 and 0xff: bit positions are assigned walking r.partitions in
sorted-name order, not in the ascending-percentage walk order. -/
theorem resolveRelative_walk_order_counterexample :
    lsbZero 0xfffff = 20 ∧
      resolveRelative 1 20 ["exclusive", "shared"]
          (fun p => if p = "exclusive" then 60 else 40) =
        .ok [("exclusive", 0xfff), ("shared", 0xff000)] ∧
      ¬ (resolveRelative 1 20 ["exclusive", "shared"]
          (fun p => if p = "exclusive" then 60 else 40) =
        .ok [("exclusive", 0xfff00), ("shared", 0xff)]) :=
  ⟨by rw [show (0xfffff : Nat) = 2 ^ 20 - 1 by decide]; exact lsbZero_two_pow_sub_one 20,
    by decide, by decide⟩

/-- C2 amended: the per-partition bit counts are computed walking the
ascending-by-percentage sort, but the bit positions are assigned contiguously
from bit 0 upward in the order of the name-sorted partition list (the output
lists partitions in exactly that order); for the example partitions
{exclusive: 60 percent, shared: 40 percent} over a 20-bit full mask with
minBits 1, exclusive is granted bits 0 to 11 (0xfff) and shared bits 12 to 19
(0xff000). -/
theorem resolveRelative_assignment_order (minBits bitsTotal : Nat)
    (partitions : List String) (requests : String → Nat) (masks : List (String × Nat))
    (hok : resolveRelative minBits bitsTotal partitions requests = .ok masks) :
    masks.map Prod.fst = partitions ∧
      resolveRelative 1 20 ["exclusive", "shared"]
          (fun p => if p = "exclusive" then 60 else 40) =
        .ok [("exclusive", 0xfff), ("shared", 0xff000)] := by
  refine ⟨?_, by decide⟩
  simp only [resolveRelative] at hok
  by_cases hgt : (partitions.map requests).sum > 100
  · rw [if_pos hgt] at hok; cases hok
  · rw [if_neg hgt] at hok
    rcases hcg : calcGrants minBits ((partitions.map requests).sum)
        ((partitions.map requests).sum * bitsTotal / 100)
        (sortAsc (partitions.map (fun p => reqHelper.mk p (requests p))))
        ((partitions.map requests).sum * bitsTotal / 100) with e | gs
    · rw [hcg] at hok; cases hok
    · rw [hcg] at hok
      cases hok
      exact buildMasks_map_fst _ _ _

/-- Witness for the C2 amended theorem at the example input. -/
theorem resolveRelative_assignment_order_witness :
    [(("exclusive" : String), (0xfff : Nat)), ("shared", 0xff000)].map Prod.fst =
      ["exclusive", "shared"] ∧
      resolveRelative 1 20 ["exclusive", "shared"]
          (fun p => if p = "exclusive" then 60 else 40) =
        .ok [("exclusive", 0xfff), ("shared", 0xff000)] :=
  resolveRelative_assignment_order 1 20 ["exclusive", "shared"]
    (fun p => if p = "exclusive" then 60 else 40)
    [("exclusive", 0xfff), ("shared", 0xff000)] (by decide)

theorem mask_block_mod (nb o : Nat) (h : o + nb ≤ 64) :
    (((1 <<< nb) - 1) <<< o) % U64 = (2 ^ nb - 1) * 2 ^ o := by
  rw [Nat.one_shiftLeft, Nat.shiftLeft_eq, U64]
  apply Nat.mod_eq_of_lt
  calc (2 ^ nb - 1) * 2 ^ o < 2 ^ nb * 2 ^ o := by
        have hp : 0 < 2 ^ nb := Nat.pos_pow_of_pos _ (by decide)
        have hq : 0 < 2 ^ o := Nat.pos_pow_of_pos _ (by decide)
        exact (Nat.mul_lt_mul_right hq).mpr (by omega)
    _ = 2 ^ (nb + o) := by rw [← Nat.pow_add]
    _ ≤ 2 ^ 64 := Nat.pow_le_pow_right (by decide) (by omega)

theorem verify_block_ok (w o minBits : Nat) (hw : 0 < w) (hmin : minBits ≤ w) :
    verifyCatBaseMask ((2 ^ w - 1) * 2 ^ o) minBits = .ok () := by
  unfold verifyCatBaseMask
  have h5 : 0 < 2 ^ w - 1 := by
    have := Nat.one_lt_two_pow_iff.mpr (by omega : w ≠ 0); omega
  have h6 : 0 < 2 ^ o := Nat.pos_pow_of_pos o (by decide)
  have hne : ¬ ((2 ^ w - 1) * 2 ^ o = 0) := by
    have := Nat.mul_pos h5 h6; omega
  rw [if_neg hne, popcount_block, msbOne_block w o hw, lsbOne_block w o hw]
  rw [if_neg (by omega : ¬ w ≠ o + w - 1 - o + 1), if_neg (by omega : ¬ w < minBits)]

theorem catAbsoluteOverlay_spec (a w lsbB minBits : Nat)
    (hw : 0 < w) (hmin : minBits ≤ w) :
    ((∃ e, catAbsoluteAllocationOverlay a ((2 ^ w - 1) * 2 ^ lsbB) minBits = .error e) ↔
      ((a <<< lsbB) % U64) ||| ((2 ^ w - 1) * 2 ^ lsbB) ≠ (2 ^ w - 1) * 2 ^ lsbB) ∧
      (∀ m, catAbsoluteAllocationOverlay a ((2 ^ w - 1) * 2 ^ lsbB) minBits = .ok m →
        m = (a <<< lsbB) % U64 ∧ m &&& ((2 ^ w - 1) * 2 ^ lsbB) = m) := by
  have hverify := verify_block_ok w lsbB minBits hw hmin
  have hlsb := lsbOne_block w lsbB hw
  constructor
  · simp only [catAbsoluteAllocationOverlay, hverify, hlsb]
    by_cases hfit : ((a <<< lsbB) % U64) ||| ((2 ^ w - 1) * 2 ^ lsbB) ≠ (2 ^ w - 1) * 2 ^ lsbB
    · rw [if_pos hfit]
      exact ⟨fun _ => hfit, fun _ => ⟨_, rfl⟩⟩
    · rw [if_neg hfit]
      constructor
      · rintro ⟨e, he⟩
        exact Except.noConfusion he
      · intro h
        exact absurd h hfit
  · intro m hm
    simp only [catAbsoluteAllocationOverlay, hverify, hlsb] at hm
    by_cases hfit : ((a <<< lsbB) % U64) ||| ((2 ^ w - 1) * 2 ^ lsbB) ≠ (2 ^ w - 1) * 2 ^ lsbB
    · rw [if_pos hfit] at hm
      exact Except.noConfusion hm
    · rw [if_neg hfit] at hm
      cases hm
      refine ⟨rfl, ?_⟩
      exact land_self_of_lor_eq _ _ (not_ne_iff.mp hfit)

/-- C5: overlaying an absolute class allocation shifts the class mask left by
the index of the base mask's lowest set bit (here lsbB, the base being the
contiguous block of w bits at offset lsbB); it fails exactly when the shifted
mask has a bit outside the base mask, and on success the result is the
shifted mask, a bit-subset of the base. In particular base 0xff00 with class
request 0x1ff fails. -/
theorem catAbsoluteAllocation_Overlay_fit (a w lsbB minBits : Nat)
    (hw : 0 < w) (hmin : minBits ≤ w) :
    ((∃ e, catAbsoluteAllocationOverlay a ((2 ^ w - 1) * 2 ^ lsbB) minBits = .error e) ↔
      ((a <<< lsbB) % U64) ||| ((2 ^ w - 1) * 2 ^ lsbB) ≠ (2 ^ w - 1) * 2 ^ lsbB) ∧
      (∀ m, catAbsoluteAllocationOverlay a ((2 ^ w - 1) * 2 ^ lsbB) minBits = .ok m →
        m = (a <<< lsbB) % U64 ∧ m &&& ((2 ^ w - 1) * 2 ^ lsbB) = m) ∧
      (∃ e, catAbsoluteAllocationOverlay 0x1ff 0xff00 1 = .error e) := by
  refine ⟨(catAbsoluteOverlay_spec a w lsbB minBits hw hmin).1,
    (catAbsoluteOverlay_spec a w lsbB minBits hw hmin).2, ?_⟩
  rw [show (0xff00 : Nat) = (2 ^ 8 - 1) * 2 ^ 8 by decide]
  exact (catAbsoluteOverlay_spec 0x1ff 8 8 1 (by decide) (by decide)).1.mpr (by decide)

/-- Witness for C5 at a concrete input: base 0xf0 (w = 4 at offset 4) with
class mask 0x3. -/
theorem catAbsoluteAllocation_Overlay_fit_witness :
    ((∃ e, catAbsoluteAllocationOverlay 0x3 ((2 ^ 4 - 1) * 2 ^ 4) 1 = .error e) ↔
      ((0x3 <<< 4) % U64) ||| ((2 ^ 4 - 1) * 2 ^ 4) ≠ (2 ^ 4 - 1) * 2 ^ 4) ∧
      (∀ m, catAbsoluteAllocationOverlay 0x3 ((2 ^ 4 - 1) * 2 ^ 4) 1 = .ok m →
        m = (0x3 <<< 4) % U64 ∧ m &&& ((2 ^ 4 - 1) * 2 ^ 4) = m) ∧
      (∃ e, catAbsoluteAllocationOverlay 0x1ff 0xff00 1 = .error e) :=
  catAbsoluteAllocation_Overlay_fit 0x3 4 4 1 (by decide) (by decide)

/-- C4: a percentage-range overlay onto a contiguous base mask (w bits at
offset lsbB, w at least minBits) whose proportional bit range comes out
narrower than minBits is widened, first from the low end (bounded by bit 0)
then from the high end (bounded by the base width), to a mask with exactly
minBits set bits. -/
theorem catPctRangeAllocation_Overlay_minBits (lowPct highPct w lsbB minBits : Nat)
    (hw : 0 < w) (hmin : minBits ≤ w) (hfit64 : lsbB + w ≤ 64)
    (hlow : (if lowPct = 0 then 1 else lowPct) ≤ highPct)
    (hlow100 : (if lowPct = 0 then 1 else lowPct) ≤ 100) (hhigh : highPct ≤ 100)
    (hnarrow : (highPct - 1) * w / 100 -
        ((if lowPct = 0 then 1 else lowPct) - 1) * w / 100 + 1 < minBits) :
    ∃ v, catPctRangeAllocationOverlay lowPct highPct ((2 ^ w - 1) * 2 ^ lsbB) minBits = .ok v ∧
      popcount v = minBits := by
  have hverify := verify_block_ok w lsbB minBits hw hmin
  have hmsb := msbOne_block w lsbB hw
  have hlsbB := lsbOne_block w lsbB hw
  simp only [catPctRangeAllocationOverlay, hverify, hmsb, hlsbB]
  have hWeq : lsbB + w - 1 - lsbB + 1 = w := by omega
  rw [hWeq]
  set L := if lowPct = 0 then 1 else lowPct with hL
  set lsb := (L - 1) * w / 100 with hlsbdef
  set msb := (highPct - 1) * w / 100 with hmsbdef
  have hlm : lsb ≤ msb := by
    rw [hlsbdef, hmsbdef]
    exact Nat.div_le_div_right (Nat.mul_le_mul_right w (by omega))
  have hmw : msb < w := by
    rw [hmsbdef]
    have h1 : (highPct - 1) * w ≤ 99 * w := Nat.mul_le_mul_right w (by omega)
    have h2 : 99 * w / 100 < w := (Nat.div_lt_iff_lt_mul (by decide)).mpr (by omega)
    calc (highPct - 1) * w / 100 ≤ 99 * w / 100 := Nat.div_le_div_right h1
      _ < w := h2
  rw [if_neg (by omega : ¬ (L > highPct ∨ L > 100 ∨ highPct > 100))]
  rw [if_pos hnarrow]
  by_cases hgl : minBits - (msb - lsb + 1) ≤ lsb
  · simp only [if_pos hgl]
    rw [if_pos (Nat.zero_le _)]
    have hnb : msb + 0 - (lsb - (minBits - (msb - lsb + 1))) + 1 = minBits := by omega
    rw [hnb]
    rw [mask_block_mod minBits (lsb - (minBits - (msb - lsb + 1)) + lsbB) (by omega)]
    exact ⟨_, rfl, popcount_block minBits _⟩
  · simp only [if_neg hgl]
    rw [if_pos (by omega : minBits - (msb - lsb + 1) - lsb ≤ w - msb - 1)]
    have hnb : msb + (minBits - (msb - lsb + 1) - lsb) - 0 + 1 = minBits := by omega
    rw [hnb]
    rw [mask_block_mod minBits (0 + lsbB) (by omega)]
    exact ⟨_, rfl, popcount_block minBits _⟩

/-- Witness for C4 at a concrete input: a 1 percent request against an 8-bit
base mask with minBits 2 yields a mask with exactly 2 set bits. -/
theorem catPctRangeAllocation_Overlay_minBits_witness :
    ∃ v, catPctRangeAllocationOverlay 1 1 ((2 ^ 8 - 1) * 2 ^ 0) 2 = .ok v ∧
      popcount v = 2 :=
  catPctRangeAllocation_Overlay_minBits 1 1 8 0 2 (by decide) (by decide) (by decide)
    (by decide) (by decide) (by decide) (by decide)

/-- C9: overlaying a simple percentage allocation is identical, result or
error, to overlaying a percentage range with low 1 and the same high. -/
theorem catPctAllocation_eq_range (a baseMask minBits : Nat) :
    catPctAllocationOverlay a baseMask minBits =
      catPctRangeAllocationOverlay 1 a baseMask minBits := by
  rcases hv : verifyCatBaseMask baseMask minBits with e | u
  · simp only [catPctAllocationOverlay, catPctRangeAllocationOverlay, hv]
  · simp only [catPctAllocationOverlay, catPctRangeAllocationOverlay, hv]
    norm_num

/-- C6: the per-cache-id value of mbSchema.ToStr. In MBps mode the value is
the requested MBps capped by the partition's granted value, with the maximum
uint32 value as the default request; in percentage mode it is
floor(classPct times partitionGranted over 100), raised to the hardware
minimum bandwidth, with 100 percent as the default request. -/
theorem mbSchema_ToStr_value (minBw base : Nat) (f : Nat → Nat) (id : Nat)
    (hfb : f id * base < U64) (hb : 100 * base < U64) :
    mbToStrValue true minBw none id base = min mbMaxUint32 base ∧
      mbToStrValue true minBw (some f) id base = min (f id) base ∧
      mbToStrValue false minBw (some f) id base = max (f id * base / 100) minBw ∧
      mbToStrValue false minBw none id base = max (100 * base / 100) minBw := by
  refine ⟨?_, ?_, ?_, ?_⟩
  · simp only [mbToStrValue, if_true]
    by_cases h : mbMaxUint32 > base
    · rw [if_pos h]; omega
    · rw [if_neg h]; omega
  · simp only [mbToStrValue, if_true]
    by_cases h : f id > base
    · rw [if_pos h]; omega
    · rw [if_neg h]; omega
  · simp only [mbToStrValue, Bool.false_eq_true, if_false]
    rw [Nat.mod_eq_of_lt hfb]
    by_cases h : f id * base / 100 < minBw
    · rw [if_pos h]; omega
    · rw [if_neg h]; omega
  · simp only [mbToStrValue, Bool.false_eq_true, if_false]
    rw [Nat.mod_eq_of_lt hb]
    by_cases h : 100 * base / 100 < minBw
    · rw [if_pos h]; omega
    · rw [if_neg h]; omega

/-- Witness for C6 at concrete inputs: requested 50, granted 80, minimum 10. -/
theorem mbSchema_ToStr_value_witness :
    mbToStrValue true 10 none 0 80 = min mbMaxUint32 80 ∧
      mbToStrValue true 10 (some (fun _ => 50)) 0 80 = min 50 80 ∧
      mbToStrValue false 10 (some (fun _ => 50)) 0 80 = max (50 * 80 / 100) 10 ∧
      mbToStrValue false 10 none 0 80 = max (100 * 80 / 100) 10 :=
  mbSchema_ToStr_value 10 80 (fun _ => 50) 0 (by decide) (by decide)

/-- C7: the code accepts a configuration that names the root class by its two
accepted spellings (the empty alias and the reserved literal) under two
different partitions, even though the two spellings are aliases of the same
identity (isRootClass holds for both) and the repository's own test expects
such a configuration to be rejected as a duplicate: resolveClasses compares
raw class names without unaliasing. -/
theorem resolveClasses_root_alias_accepted :
    isRootClass RootClassAlias = true ∧ isRootClass RootClassName = true ∧
      resolveClassesNames [("part-1", [RootClassAlias]), ("part-2", [RootClassName])] =
        .ok [RootClassAlias, RootClassName] := by
  refine ⟨by decide, by decide, by decide⟩

theorem removeStale_abort (force : Bool) (conf : List String) (disk : List fsGroup)
    (g : fsGroup) (hmem : g ∈ disk) (hroot : isRootClass g.name = false)
    (hconf : g.name ∉ conf) (hforce : force = false) (hpids : g.pids ≠ []) :
    ∃ remaining, removeStaleGroups force conf disk = .error remaining ∧ g ∈ remaining := by
  induction disk with
  | nil => simp at hmem
  | cons h rest ih =>
    rw [removeStaleGroups]
    by_cases hk : isRootClass h.name ∨ h.name ∈ conf
    · rw [if_pos hk]
      have hne : g ≠ h := by
        intro heq
        subst heq
        rcases hk with hk1 | hk1
        · rw [hroot] at hk1; exact Bool.noConfusion hk1
        · exact hconf hk1
      have hg : g ∈ rest := by
        rcases List.mem_cons.mp hmem with h1 | h1
        · exact absurd h1 hne
        · exact h1
      rcases ih hg with ⟨rem, hrem, hgrem⟩
      rw [hrem]
      exact ⟨h :: rem, rfl, List.mem_cons_of_mem _ hgrem⟩
    · rw [if_neg hk]
      by_cases habort : force = false ∧ h.pids ≠ []
      · rw [if_pos habort]
        exact ⟨h :: rest, rfl, hmem⟩
      · rw [if_neg habort]
        have hhp : h.pids = [] := by
          by_cases hp : h.pids = []
          · exact hp
          · exact absurd ⟨hforce, hp⟩ habort
        have hne : g ≠ h := by
          intro heq
          subst heq
          exact hpids hhp
        have hg : g ∈ rest := by
          rcases List.mem_cons.mp hmem with h1 | h1
          · exact absurd h1 hne
          · exact h1
        exact ih hg

theorem removeStale_ok (force : Bool) (conf : List String) (disk : List fsGroup)
    (hall : ∀ gp ∈ disk, isRootClass gp.name = false → gp.name ∉ conf →
      force = false → gp.pids = []) :
    ∃ kept, removeStaleGroups force conf disk = .ok kept ∧
      ∀ gp ∈ kept, isRootClass gp.name = true ∨ gp.name ∈ conf := by
  induction disk with
  | nil => exact ⟨[], by rw [removeStaleGroups], by intro gp hgp; simp at hgp⟩
  | cons h rest ih =>
    have hall2 : ∀ gp ∈ rest, isRootClass gp.name = false → gp.name ∉ conf →
        force = false → gp.pids = [] := by
      intro gp hgp
      exact hall gp (List.mem_cons_of_mem _ hgp)
    rcases ih hall2 with ⟨kept, hkept, hprop⟩
    rw [removeStaleGroups]
    by_cases hk : isRootClass h.name ∨ h.name ∈ conf
    · rw [if_pos hk, hkept]
      refine ⟨h :: kept, rfl, ?_⟩
      intro gp hgp
      rcases List.mem_cons.mp hgp with h1 | h1
      · subst h1
        rcases hk with hk1 | hk1
        · exact Or.inl hk1
        · exact Or.inr hk1
      · exact hprop gp h1
    · rw [if_neg hk]
      have hhr : isRootClass h.name = false := by
        by_cases hr : isRootClass h.name
        · exact absurd (Or.inl hr) hk
        · exact Bool.eq_false_iff.mpr hr
      have hhc : h.name ∉ conf := fun hc => hk (Or.inr hc)
      have hhp := hall h (List.mem_cons_self h rest) hhr hhc
      have hnabort : ¬ (force = false ∧ h.pids ≠ []) := by
        rintro ⟨hf, hp⟩
        exact hp (hhp hf)
      rw [if_neg hnabort]
      exact ⟨kept, hkept, hprop⟩

/-- C8: during reconciliation, a prefix-matching on-disk group absent from the
resolved configuration and distinct from the root group causes the whole pass
to abort (its directory remaining) when force-mode is off and it has assigned
processes; with no assigned processes (or force on, for every such group) the
pass succeeds, the group's directory is removed and it leaves the tracked
set. -/
theorem configureResctrl_stale_groups (force : Bool) (conf : List String)
    (disk : List fsGroup) (g : fsGroup)
    (hmem : g ∈ disk) (hroot : isRootClass g.name = false) (hconf : g.name ∉ conf) :
    (force = false → g.pids ≠ [] →
      ∃ remaining, removeStaleGroups force conf disk = .error remaining ∧ g ∈ remaining) ∧
      ((force = true ∨ ∀ gp ∈ disk, isRootClass gp.name = false → gp.name ∉ conf →
          gp.pids = []) →
        ∃ kept, removeStaleGroups force conf disk = .ok kept ∧ g ∉ kept) := by
  constructor
  · intro hforce hpids
    exact removeStale_abort force conf disk g hmem hroot hconf hforce hpids
  · intro hglobal
    have hall : ∀ gp ∈ disk, isRootClass gp.name = false → gp.name ∉ conf →
        force = false → gp.pids = [] := by
      intro gp hgp hr hc hf
      rcases hglobal with h1 | h1
      · rw [h1] at hf; exact Bool.noConfusion hf
      · exact h1 gp hgp hr hc
    rcases removeStale_ok force conf disk hall with ⟨kept, hkept, hprop⟩
    refine ⟨kept, hkept, ?_⟩
    intro hgk
    rcases hprop g hgk with h1 | h1
    · rw [hroot] at h1; exact Bool.noConfusion h1
    · exact hconf h1

/-- Witness for C8 at a concrete input: group grp1 holds process 123 and is
absent from an empty configuration. -/
theorem configureResctrl_stale_groups_witness :
    ((false = false → fsGroup.pids ⟨"grp1", ["123"]⟩ ≠ [] →
      ∃ remaining, removeStaleGroups false [] [⟨"grp1", ["123"]⟩] = .error remaining ∧
        fsGroup.mk "grp1" ["123"] ∈ remaining) ∧
      ((false = true ∨ ∀ gp ∈ [fsGroup.mk "grp1" ["123"]], isRootClass gp.name = false →
          gp.name ∉ ([] : List String) → gp.pids = []) →
        ∃ kept, removeStaleGroups false [] [⟨"grp1", ["123"]⟩] = .ok kept ∧
          fsGroup.mk "grp1" ["123"] ∉ kept)) :=
  configureResctrl_stale_groups false [] [⟨"grp1", ["123"]⟩] ⟨"grp1", ["123"]⟩
    (by decide) (by decide) (by decide)

theorem dropWhile_all_space (l : List Char) (h : ∀ c ∈ l, isSpace c = true) :
    l.dropWhile isSpace = [] := by
  induction l with
  | nil => rfl
  | cons c rest ih =>
    rw [List.dropWhile_cons]
    rw [h c (List.mem_cons_self c rest)]
    simp only [if_true]
    exact ih (fun x hx => h x (List.mem_cons_of_mem _ hx))

theorem dropWhile_nonspace_head (c : Char) (t : List Char) (h : isSpace c = false) :
    (c :: t).dropWhile isSpace = c :: t := by
  rw [List.dropWhile_cons, h]
  simp

theorem trimSpace_all_space (l : List Char) (h : ∀ c ∈ l, isSpace c = true) :
    trimSpace l = [] := by
  rw [trimSpace, dropWhile_all_space l h]
  rfl

theorem joinNl_head (p : List Char) (rest : List (List Char))
    (hp : p ≠ []) :
    ∃ c t, joinNl (p :: rest) = c :: t ∧ c ∈ p := by
  rcases p with _ | ⟨c, p1⟩
  · exact absurd rfl hp
  · rcases rest with _ | ⟨q, rest1⟩
    · exact ⟨c, p1, by simp [joinNl, List.intersperse], List.mem_cons_self _ _⟩
    · refine ⟨c, p1 ++ '\n' :: joinNl (q :: rest1), ?_, List.mem_cons_self _ _⟩
      simp [joinNl, List.intersperse]

theorem joinNl_reverse_head (pids : List (List Char))
    (hne : pids ≠ []) (hv : ∀ p ∈ pids, p ≠ []) :
    ∃ c t, (joinNl pids).reverse = c :: t ∧ c ∈ pids.getLast hne := by
  induction pids with
  | nil => exact absurd rfl hne
  | cons p rest ih =>
    rcases rest with _ | ⟨q, rest1⟩
    · have hp : p ≠ [] := hv p (List.mem_cons_self _ _)
      rcases hcl : p.reverse with _ | ⟨c, t⟩
      · exact absurd (by simpa using congrArg List.reverse hcl) hp
      · refine ⟨c, t, ?_, ?_⟩
        · rw [show joinNl [p] = p by simp [joinNl, List.intersperse], hcl]
        · have : c ∈ p.reverse := by rw [hcl]; exact List.mem_cons_self _ _
          simpa [List.getLast] using List.mem_reverse.mp this
    · have hrest : ∀ x ∈ q :: rest1, x ≠ [] := by
        intro x hx
        exact hv x (List.mem_cons_of_mem _ hx)
      rcases ih (by simp) hrest with ⟨c, t, hct, hcm⟩
      have hjoin : joinNl (p :: q :: rest1) = p ++ '\n' :: joinNl (q :: rest1) := by
        simp [joinNl, List.intersperse]
      refine ⟨c, t ++ '\n' :: p.reverse, ?_, ?_⟩
      · rw [hjoin, List.reverse_append]
        simp only [List.reverse_cons]
        rw [hct]
        simp
      · rw [List.getLast_cons (by simp)]
        exact hcm

theorem splitNl_no_newline (p : List Char) (h : '\n' ∉ p) : splitNl p = [p] := by
  induction p with
  | nil => rfl
  | cons c rest ih =>
    rw [splitNl]
    have hc : ¬ (c = '\n') := fun hh => h (by rw [hh]; exact List.mem_cons_self _ _)
    simp only [if_neg hc]
    rw [ih (fun hm => h (List.mem_cons_of_mem _ hm))]

theorem splitNl_append_newline (p t : List Char) (h : '\n' ∉ p) :
    splitNl (p ++ '\n' :: t) = p :: splitNl t := by
  induction p with
  | nil =>
    simp only [List.nil_append]
    rw [splitNl]
    simp
  | cons c rest ih =>
    have hc : ¬ (c = '\n') := fun hh => h (by rw [hh]; exact List.mem_cons_self _ _)
    rw [List.cons_append, splitNl]
    simp only [if_neg hc]
    rw [ih (fun hm => h (List.mem_cons_of_mem _ hm))]

theorem splitNl_joinNl (pids : List (List Char)) (hne : pids ≠ [])
    (hv : ∀ p ∈ pids, '\n' ∉ p) : splitNl (joinNl pids) = pids := by
  induction pids with
  | nil => exact absurd rfl hne
  | cons p rest ih =>
    rcases rest with _ | ⟨q, rest1⟩
    · rw [show joinNl [p] = p by simp [joinNl, List.intersperse]]
      exact splitNl_no_newline p (hv p (List.mem_cons_self _ _))
    · have hjoin : joinNl (p :: q :: rest1) = p ++ '\n' :: joinNl (q :: rest1) := by
        simp [joinNl, List.intersperse]
      rw [hjoin, splitNl_append_newline p _ (hv p (List.mem_cons_self _ _))]
      rw [ih (by simp) (fun x hx => hv x (List.mem_cons_of_mem _ hx))]

theorem trimSpace_joinNl (pids : List (List Char)) (hne : pids ≠ [])
    (hv : ∀ p ∈ pids, p ≠ [] ∧ ∀ c ∈ p, isSpace c = false) :
    trimSpace (joinNl pids ++ ['\n']) = joinNl pids := by
  rcases pids with _ | ⟨p, rest⟩
  · exact absurd rfl hne
  · rcases joinNl_head p rest (hv p (List.mem_cons_self _ _)).1 with ⟨c, t, hct, hcm⟩
    have hfront : (joinNl (p :: rest) ++ ['\n']).dropWhile isSpace =
        joinNl (p :: rest) ++ ['\n'] := by
      rw [hct, List.cons_append]
      exact dropWhile_nonspace_head c _ ((hv p (List.mem_cons_self _ _)).2 c hcm)
    rw [trimSpace, hfront]
    rcases joinNl_reverse_head (p :: rest) (by simp) (fun x hx => (hv x hx).1)
      with ⟨c2, t2, hct2, hcm2⟩
    have hback : (joinNl (p :: rest) ++ ['\n']).reverse.dropWhile isSpace =
        c2 :: t2 := by
      rw [List.reverse_append]
      simp only [List.reverse_cons, List.reverse_nil, List.nil_append, List.singleton_append]
      rw [List.dropWhile_cons]
      have hnl : isSpace '\n' = true := by decide
      rw [hnl]
      simp only [if_true]
      rw [hct2]
      refine dropWhile_nonspace_head c2 t2 ?_
      have hlast : (p :: rest).getLast (by simp) ∈ p :: rest := List.getLast_mem _
      exact (hv _ hlast).2 c2 hcm2
    rw [hback, ← hct2, List.reverse_reverse]

/-- C10: GetPids on a well-formed tasks file (newline-separated nonempty ids,
trailing newline) returns exactly the listed ids; on a file of only
whitespace it returns the empty list; it never returns a list holding a
single empty string. -/
theorem GetPids_entries (ws : List Char) (pids : List (List Char))
    (hws : ∀ c ∈ ws, isSpace c = true)
    (hpids : ∀ p ∈ pids, p ≠ [] ∧ ∀ c ∈ p, isSpace c = false) :
    getPids ws = [] ∧ getPids (joinNl pids ++ ['\n']) = pids ∧
      ∀ data : List Char, getPids data ≠ [[]] := by
  refine ⟨?_, ?_, ?_⟩
  · rw [getPids, trimSpace_all_space ws hws]
    rfl
  · rcases pids with _ | ⟨p, rest⟩
    · decide
    · rw [getPids, trimSpace_joinNl (p :: rest) (by simp) hpids]
      have hnlp : ∀ x ∈ p :: rest, '\n' ∉ x := by
        intro x hx hmm
        have := (hpids x hx).2 '\n' hmm
        exact absurd this (by decide)
      rw [splitNl_joinNl (p :: rest) (by simp) hnlp]
      simp only
      rcases hp : p with _ | ⟨c, p1⟩
      · exact absurd hp (hpids p (List.mem_cons_self _ _)).1
      · simp
  · intro data
    rw [getPids]
    rcases hs : splitNl (trimSpace data) with _ | ⟨h, t⟩
    · simp
    · simp only
      by_cases hl : h.length > 0
      · rw [if_pos hl]
        intro heq
        have : h = [] := by
          have := congrArg (fun l => l.headD ['x']) heq
          simpa using this
        rw [this] at hl
        simp at hl
      · rw [if_neg hl]
        simp

/-- Witness for C10 at concrete inputs: a whitespace-only tasks file and the
tasks file holding ids 12 and 3. -/
theorem GetPids_entries_witness :
    getPids [' ', '\n'] = [] ∧
      getPids (joinNl [['1', '2'], ['3']] ++ ['\n']) = [['1', '2'], ['3']] ∧
      ∀ data : List Char, getPids data ≠ [[]] :=
  GetPids_entries [' ', '\n'] [['1', '2'], ['3']] (by decide) (by decide)
